import Mathlib

set_option maxRecDepth 10000

/-!
Shallow embedding of `src/lkh3skeleton.c` (a TSP solver skeleton: TSPLIB-style
rounded Euclidean distances, greedy nearest-neighbour construction, doubly linked
tour structure and a candidate-list based 2-opt local search), together with
proofs settling the specification claims.

Modelling conventions:
* `double` coordinates are modelled as integers (`Int`); all distance values the
  program manipulates are integer-valued (`round` of a square root), so sums and
  differences of distances are exact and the C acceptance test `delta > 1e-9`
  is equivalent to `delta ≥ 1`, i.e. `0 < delta` over `Int`.
* arrays are Lean lists; an out-of-bounds read or write, a read of memory that
  was never initialised, and a read of freed memory are undefined behaviour in C
  and are modelled by `Option` (returning `none`).
* the C `while` loops of `two_opt_pass` / `tour_length` have no a-priori bound,
  so they are modelled with an explicit fuel argument; `none` for every fuel
  means the loop never terminates.
-/

namespace LKH

/-- A node's coordinates (fields `x`, `y` of `struct Node`). -/
structure Point where
  x : Int
  y : Int
deriving DecidableEq, Repr

/-- The instance is the list of node coordinates; node `i` is `co.getD i ⟨0,0⟩`
and `N = co.length`. -/
abbrev Coords := List Point

/-- Squared Euclidean distance between two points (the value
`dx*dx + dy*dy` computed by `dist` in the C source, line 32). -/
def sqDist (p q : Point) : Nat :=
  ((p.x - q.x) * (p.x - q.x) + (p.y - q.y) * (p.y - q.y)).toNat

/-- Fuel-bounded binary-recursion integer square root (kernel-reducible; the
fuel only has to dominate the recursion depth, and `n` itself always does). -/
def sqrtAux : Nat → Nat → Nat
  | 0, _ => 0
  | fuel + 1, n =>
    if n < 2 then n
    else
      let r := 2 * sqrtAux fuel (n / 4)
      if (r + 1) * (r + 1) ≤ n then r + 1 else r

/-- Integer square root: `natSqrt n = ⌊√n⌋` (see `natSqrt_spec`). -/
def natSqrt (n : Nat) : Nat := sqrtAux n n

/-- Nearest integer to `√m` with halves rounding up; this is the exact value of
the C expression `round(sqrt((double)m))` for a natural number `m`
(`round` rounds half away from zero, and `√m ≥ 0`). -/
def roundSqrt (m : Nat) : Nat :=
  (natSqrt (4 * m) + 1) / 2

/-- `dist(i, j)` from the C source (lines 29-33): TSPLIB-style rounded planar
Euclidean distance between nodes `i` and `j`. -/
def dist (co : Coords) (i j : Nat) : Nat :=
  roundSqrt (sqDist (co.getD i ⟨0, 0⟩) (co.getD j ⟨0, 0⟩))

/-- The doubly linked tour structure: `next`/`prev` are the `next` and `prev`
fields of the `Node` array, indexed by node number. -/
structure Tour where
  next : List Nat
  prev : List Nat
deriving DecidableEq, Repr

/-- `tour_from_order` (lines 152-158): materialise an order as a cycle,
setting `nodes[order[i]].next = order[(i+1)%N]` and the matching `prev`.
The C fields start uninitialised; since the loop writes the links of every
listed node, starting the model from zeroed lists is observationally equal
whenever `order` is a permutation of `0..N-1`. -/
def tour_from_order (N : Nat) (order : List Nat) : Tour :=
  (List.range N).foldl
    (fun t i =>
      ⟨t.next.set (order.getD i 0) (order.getD ((i + 1) % N) 0),
       t.prev.set (order.getD ((i + 1) % N) 0) (order.getD i 0)⟩)
    ⟨List.replicate N 0, List.replicate N 0⟩

/-! ### Candidate set construction (lines 76-114) -/

/-- `K_CANDIDATES` (line 78). -/
def K_CANDIDATES : Nat := 20

/-- Stable insertion of an edge into a length-sorted list.  Models one effect of
`qsort(cands, ..., cmp_edges)` (lines 80-84, 101, 105): the comparator orders by
`length` ascending; for the integer-valued lengths at hand the
`double`-to-`int` conversion in `cmp_edges` is exact.  C's `qsort` leaves the
relative order of equal keys unspecified; the model fixes a stable sort (the
concrete instances used in theorems below have pairwise distinct keys wherever
the candidate order matters, so this choice is observationally irrelevant
there). -/
def insertByLen (e : Nat × Nat) : List (Nat × Nat) → List (Nat × Nat)
  | [] => [e]
  | f :: fs => if e.2 < f.2 then e :: f :: fs else f :: insertByLen e fs

/-- Stable insertion sort by edge length (model of `qsort` with `cmp_edges`). -/
def sortCands (l : List (Nat × Nat)) : List (Nat × Nat) :=
  l.foldr insertByLen []

/-- One iteration of the inner `j` loop of `build_candidate_set`
(lines 95-108): skip `j == i`; while fewer than `K_CANDIDATES` edges are
filled, append `(j, dist i j)` and sort once the buffer is full; afterwards
replace the last (largest) edge when strictly closer, and re-sort. -/
def candStep (co : Coords) (i : Nat) (acc : List (Nat × Nat)) (j : Nat) :
    List (Nat × Nat) :=
  if j = i then acc
  else
    let len := dist co i j
    if acc.length < K_CANDIDATES then
      let acc1 := acc ++ [(j, len)]
      if acc1.length = K_CANDIDATES then sortCands acc1 else acc1
    else if len < (acc.getLastD (0, 0)).2 then
      sortCands (acc.dropLast ++ [(j, len)])
    else acc

/-- `build_candidate_set` (lines 86-114): the list of `.to` fields of the edges
actually written for each node.  Note the code then stores
`nodes[i].cand_count = K_CANDIDATES` unconditionally (line 111), even when
fewer than `K_CANDIDATES` edges were filled; see `cand_count` below. -/
def build_candidate_set (co : Coords) : List (List Nat) :=
  (List.range co.length).map fun i =>
    ((List.range co.length).foldl (candStep co i) []).map Prod.fst

/-- The stored `nodes[i].cand_count` (line 111): the source sets it to
`K_CANDIDATES` for every node, regardless of how many candidate edges were
actually initialised. -/
def cand_count (_ : Coords) (_ : Nat) : Nat := K_CANDIDATES

/-! ### Greedy nearest-neighbour construction (lines 117-150) -/

/-- The inner scan of `build_initial_tour` (lines 130-138) over the remaining
node indices `js`, carrying the current best `(best_j, best_d)`.  The C code
seeds `best_d = 1e100` and `best_j = -1`; since every real distance is below
the sentinel, this is exactly the `Option` accumulator: `none` plays the role
of the sentinel pair.  The strict comparison `d < best_d` keeps the first
(lowest-index) minimiser. -/
def scanMinAux (co : Coords) (cur : Nat) (visited : List Bool) :
    List Nat → Option (Nat × Nat) → Option (Nat × Nat)
  | [], best => best
  | j :: js, best =>
    if visited.getD j true then scanMinAux co cur visited js best
    else
      let d := dist co cur j
      match best with
      | none => scanMinAux co cur visited js (some (j, d))
      | some b => if d < b.2 then scanMinAux co cur visited js (some (j, d))
                  else scanMinAux co cur visited js best

/-- One full scan for the nearest unvisited node. -/
def scanMin (co : Coords) (cur : Nat) (visited : List Bool) :
    Option (Nat × Nat) :=
  scanMinAux co cur visited (List.range co.length) none

/-- The outer `k` loop of `build_initial_tour` (lines 126-144), run for the
given number of remaining steps.  When no unvisited node exists the C code
would proceed with `best_j = -1` and write `visited[-1]`: undefined behaviour,
modelled as `none` (this never happens while `steps` nodes remain
unvisited). -/
def greedyLoop (co : Coords) :
    Nat → Nat → List Bool → List Nat → Nat → Option (List Nat × Nat)
  | 0, _, _, acc, cost => some (acc.reverse, cost)
  | steps + 1, cur, visited, acc, cost =>
    match scanMin co cur visited with
    | none => none
    | some (j, d) => greedyLoop co steps j (visited.set j true) (j :: acc) (cost + d)

/-- `build_initial_tour` (lines 117-150).  For `N = 0` the statements
`visited[0] = true` and `order[0] = 0` (line 123) write out of bounds and the
closing `dist(order[N-1], order[0])` (line 146) reads `order[-1]`: undefined
behaviour, modelled as `none`.  Otherwise returns the visiting order and the
accumulated cost closed by the edge back to the start. -/
def build_initial_tour (co : Coords) : Option (List Nat × Nat) :=
  match co.length with
  | 0 => none
  | N + 1 =>
    match greedyLoop co N 0 ((List.replicate (N + 1) false).set 0 true) [0] 0 with
    | none => none
    | some (order, cost) =>
      some (order, cost + dist co (order.getLastD 0) (order.headD 0))

/-! ### Tour length and readback -/

/-- Body of the `do`-`while` in `tour_length` (lines 161-170), walking `next`
from node `0` until it returns to `0`; `none` when it does not within the given
fuel. -/
def tourLengthAux (co : Coords) (t : Tour) : Nat → Nat → Nat → Option Nat
  | 0, _, _ => none
  | fuel + 1, curr, acc =>
    let nx := t.next.getD curr 0
    let acc1 := acc + dist co curr nx
    if nx = 0 then some acc1 else tourLengthAux co t fuel nx acc1

/-- `tour_length` (lines 161-170): sum of `dist(curr, next)` around the cycle
through node `0`.  In C the loop has no bound; `none` for every fuel means the
loop never terminates. -/
def tour_length (co : Coords) (t : Tour) (fuel : Nat) : Option Nat :=
  tourLengthAux co t fuel 0 0

/-- The first `n` nodes reached by following `next` from `start` (the
"readback" of the tour structure; for a valid `N`-cycle, `walk t s N` is the
visiting order starting at `s`). -/
def walk (t : Tour) (start : Nat) : Nat → List Nat
  | 0 => []
  | n + 1 => start :: walk t (t.next.getD start 0) n

/-- Executable check of invariant (1) of the specification:
`successor[predecessor[i]] == i` and `predecessor[successor[i]] == i` for every
node `i < N`. -/
def linksConsistent (N : Nat) (t : Tour) : Bool :=
  (List.range N).all fun i =>
    t.next.getD (t.prev.getD i 0) 0 == i && t.prev.getD (t.next.getD i 0) 0 == i

/-- Executable check that following `next` from `s` visits all `N` nodes and
returns to `s` (single Hamiltonian cycle through `s`). -/
def cycleFrom (N : Nat) (t : Tour) (s : Nat) : Bool :=
  ((List.range N).all fun i => (walk t s N).contains i) &&
    t.next.getD ((walk t s N).getLastD s) 0 == s

/-- Executable check of the full tour-structure invariant of the specification:
consistent links and a single Hamiltonian cycle from every start node. -/
def invariantOK (N : Nat) (t : Tour) : Bool :=
  linksConsistent N t && (List.range N).all fun s => cycleFrom N t s

/-! ### The 2-opt engine (lines 172-211) -/

/-- One iteration of the segment-reversal `while` loop (lines 186-192): swap
`next`/`prev` of node `p` and advance `p` to its old `next`.  Returns the new
state and the new `p`. -/
def swapStep (t : Tour) (p : Nat) : Tour × Nat :=
  (⟨t.next.set p (t.prev.getD p 0), t.prev.set p (t.next.getD p 0)⟩,
   t.next.getD p 0)

/-- The reversal `while (p != c)` loop (lines 185-192) with fuel; `none` for
every fuel means the C loop never terminates. -/
def swapLoop : Nat → Tour → Nat → Nat → Option Tour
  | 0, t, p, c => if p = c then some t else none
  | fuel + 1, t, p, c =>
    if p = c then some t
    else swapLoop fuel (swapStep t p).1 (swapStep t p).2 c

/-- The reconnection writes (lines 195-198), in source order:
`nodes[a].next = c; nodes[b].prev = d; nodes[c].prev = a; nodes[d].next = b`. -/
def reconnect (t : Tour) (a b c d : Nat) : Tour :=
  ⟨(t.next.set a c).set d b, (t.prev.set b d).set c a⟩

/-- The body of the candidate loop of `two_opt_pass` for one candidate `c`
(lines 179-200): read `d = nodes[c].next`, skip the degenerate cases, compute
`delta` and, when `delta > 1e-9` (equivalently `0 < delta` for these
integer-valued doubles), reverse the segment `[b .. c]` and reconnect.
Returns the new state and whether a move was applied. -/
def tryMove (co : Coords) (a b c : Nat) (t : Tour) (fuel : Nat) :
    Option (Tour × Bool) :=
  let d := t.next.getD c 0
  if c = a ∨ c = b ∨ d = a then some (t, false)
  else
    let delta : Int :=
      (dist co a b : Int) + (dist co c d : Int) - (dist co a c : Int) -
        (dist co b d : Int)
    if 0 < delta then
      match swapLoop fuel t b c with
      | none => none
      | some t1 => some (reconnect t1 a b c d, true)
    else some (t, false)

/-- The inner `k` loop of `two_opt_pass` (lines 177-201) over the candidate
indices `ks`; `cands` is node `a`'s candidate list.  The loop runs to
`cand_count = K_CANDIDATES`, so an index beyond the initialised entries reads
an uninitialised `Edge` (undefined behaviour): `none`.  As in the source, `a`
and `b` stay fixed for the whole inner loop even after an applied move. -/
def kLoop (co : Coords) (cands : List Nat) (a b : Nat) :
    List Nat → Tour → Bool → Nat → Option (Tour × Bool)
  | [], t, imp, _ => some (t, imp)
  | k :: ks, t, imp, fuel =>
    match cands[k]? with
    | none => none
    | some c =>
      match tryMove co a b c t fuel with
      | none => none
      | some (t1, moved) => kLoop co cands a b ks t1 (imp || moved) fuel

/-- The outer `i` loop of `two_opt_pass` (lines 174-202): for each `i`, set
`a = i`, read `b = nodes[a].next` once, and run the candidate loop. -/
def iLoop (co : Coords) (ca : List (List Nat)) :
    List Nat → Tour → Bool → Nat → Option (Tour × Bool)
  | [], t, imp, _ => some (t, imp)
  | i :: is, t, imp, fuel =>
    match kLoop co (ca.getD i []) i (t.next.getD i 0)
        (List.range K_CANDIDATES) t imp fuel with
    | none => none
    | some (t1, imp1) => iLoop co ca is t1 imp1 fuel

/-- `two_opt_pass` (lines 172-205). -/
def two_opt_pass (co : Coords) (ca : List (List Nat)) (N : Nat) (t : Tour)
    (fuel : Nat) : Option (Tour × Bool) :=
  iLoop co ca (List.range N) t false fuel

/-- `two_opt_local_search` (lines 207-211): repeat `two_opt_pass` until it
reports no improvement.  `outer` bounds the number of passes; `none` for every
`fuel`/`outer` means the search never terminates. -/
def two_opt_local_search (co : Coords) (ca : List (List Nat)) (N : Nat) :
    Tour → Nat → Nat → Option Tour
  | _, _, 0 => none
  | t, fuel, outer + 1 =>
    match two_opt_pass co ca N t fuel with
    | none => none
    | some (t1, imp) =>
      if imp then two_opt_local_search co ca N t1 fuel outer else some t1

/-- `reverseSegment(from, to)` as the specification names the block at lines
184-198: reverse the segment that starts at `fro` and ends at `to` walking
forward via `next`, then reconnect; the bounding nodes are
`a = predecessor(fro)` and `d = successor(to)` read at entry, exactly the
values `a` and `d` hold at line 184 in the source. -/
def reverseSegment (t : Tour) (fro tgt fuel : Nat) : Option Tour :=
  let a := t.prev.getD fro 0
  let d := t.next.getD tgt 0
  match swapLoop fuel t fro tgt with
  | none => none
  | some t1 => some (reconnect t1 a fro tgt d)

/-- `main` (lines 221-252) after a successful load, as a function of the
instance: build candidates, build the greedy order and its length, materialise
the tour, `free(order)` (line 238), run the local search, read the final
length, and print the two lengths and the visiting order.  `print_tour(order)`
at line 244 dereferences the buffer freed at line 238 - undefined behaviour,
modelled by reading the freed allocation (`none`). -/
def main_run (co : Coords) (fuel outer lenFuel : Nat) :
    Option (Nat × Nat × List Nat) :=
  let ca := build_candidate_set co
  match build_initial_tour co with
  | none => none
  | some (order, len0) =>
    let t := tour_from_order co.length order
    let freedOrder : Option (List Nat) := none
    match two_opt_local_search co ca co.length t fuel outer with
    | none => none
    | some t1 =>
      match tour_length co t1 lenFuel with
      | none => none
      | some len1 =>
        match freedOrder with
        | none => none
        | some printed => some (len0, len1, printed)

/-! ### Auxiliary definitions used by the theorems -/

/-- One step of the segment-reversal loop as a self-map on (state, `p`)
pairs, for reasoning about the loop's trajectory. -/
def swapIter (s : Tour × Nat) : Tour × Nat :=
  swapStep s.1 s.2

/-- Check that the first `n` points of the reversal trajectory from `s` all
have `p ≠ c` (so the loop guard `p != c` stays true throughout). -/
def avoidChk (c : Nat) : Nat → (Tour × Nat) → Bool
  | 0, _ => true
  | n + 1, s => (s.2 != c) && avoidChk c n (swapIter s)

/-- Sum of `dist` over consecutive pairs of a list (the open path cost). -/
def pathCost (co : Coords) : List Nat → Nat
  | [] => 0
  | [_] => 0
  | a :: b :: rest => dist co a b + pathCost co (b :: rest)

/-- The greedy-choice property of a visiting order: each node after the first
is, among the nodes not yet visited, one of minimal distance to the current
endpoint, and no unvisited node of strictly smaller index achieves that
distance (ties broken by the lower node index). -/
def GreedyStep (co : Coords) (N : Nat) (order : List Nat) : Prop :=
  ∀ k, k + 1 < order.length →
    order.getD (k + 1) 0 < N ∧
    order.getD (k + 1) 0 ∉ order.take (k + 1) ∧
    ∀ j, j < N → j ∉ order.take (k + 1) →
      dist co (order.getD k 0) (order.getD (k + 1) 0) ≤
        dist co (order.getD k 0) j ∧
      (j < order.getD (k + 1) 0 →
        dist co (order.getD k 0) (order.getD (k + 1) 0) <
          dist co (order.getD k 0) j)

/-- Loop invariant of the inner scan of `build_initial_tour` after the indices
below `s` have been examined: `none` means every index below `s` is visited; a
best pair `(j, d)` is an unvisited index below `s` at distance `d` from `cur`,
no unvisited index below `s` is closer, and every unvisited index below `j` is
strictly farther (the scan keeps the first minimiser). -/
def ScanInv (co : Coords) (cur : Nat) (visited : List Bool) (s : Nat) :
    Option (Nat × Nat) → Prop
  | none => ∀ j, j < s → visited.getD j true = true
  | some jd =>
    jd.1 < s ∧ visited.getD jd.1 true = false ∧ jd.2 = dist co cur jd.1 ∧
      (∀ j, j < s → visited.getD j true = false → jd.2 ≤ dist co cur j) ∧
      (∀ j, j < jd.1 → visited.getD j true = false → jd.2 < dist co cur j)

/-! ### Concrete instances used as inputs of the theorems -/

/-- A 21-node instance (so every candidate list holds exactly
`K_CANDIDATES = 20` initialised entries) on which the 2-opt pass never
terminates. -/
def co3 : Coords :=
  [⟨42, 14⟩, ⟨13, 26⟩, ⟨5, 38⟩, ⟨21, 14⟩, ⟨0, 39⟩, ⟨12, 34⟩, ⟨0, 36⟩,
   ⟨18, 14⟩, ⟨26, 44⟩, ⟨35, 10⟩, ⟨0, 3⟩, ⟨5, 44⟩, ⟨28, 13⟩, ⟨44, 31⟩,
   ⟨37, 40⟩, ⟨32, 2⟩, ⟨23, 8⟩, ⟨14, 9⟩, ⟨37, 23⟩, ⟨12, 19⟩, ⟨24, 8⟩]

/-- The greedy order of `co3` (checked below against `build_initial_tour`). -/
def ord3 : List Nat :=
  [0, 9, 12, 20, 16, 3, 7, 17, 19, 1, 5, 2, 4, 6, 11, 8, 14, 13, 18, 15, 10]

/-- The tour `tour_from_order 21 ord3` as an explicit state (checked below). -/
def t03 : Tour :=
  ⟨[9, 5, 4, 7, 6, 2, 11, 17, 14, 12, 0, 8, 20, 18, 13, 10, 3, 19, 15, 1, 16],
   [10, 19, 5, 16, 2, 1, 4, 3, 11, 0, 15, 6, 9, 14, 8, 18, 20, 7, 13, 17, 12]⟩

/-- The state of `t03` after the 17 swaps of the reversal loop of the first
accepted move (before reconnection). -/
def t1hat : Tour :=
  ⟨[9, 19, 5, 16, 2, 1, 4, 3, 11, 0, 0, 6, 9, 14, 8, 10, 20, 7, 15, 17, 12],
   [10, 5, 4, 7, 6, 2, 11, 17, 14, 12, 15, 8, 20, 18, 13, 18, 3, 19, 13, 1, 16]⟩

/-- The tour state of `co3` reached right after the first accepted 2-opt move
of the first pass (`a = 0`, `b = 9`, `c = 18`, `d = 15`). -/
def t2hat : Tour :=
  ⟨[18, 19, 5, 16, 2, 1, 4, 3, 11, 0, 0, 6, 9, 14, 8, 9, 20, 7, 15, 17, 12],
   [10, 5, 4, 7, 6, 2, 11, 17, 14, 15, 15, 8, 20, 18, 13, 18, 3, 19, 0, 1, 16]⟩

/-- A 21-node instance (points on a circle) whose greedy tour admits no
accepted 2-opt move: the first pass returns `false` immediately. -/
def co5 : Coords :=
  [⟨20, 10⟩, ⟨20, 13⟩, ⟨18, 16⟩, ⟨16, 18⟩, ⟨14, 19⟩, ⟨11, 20⟩, ⟨8, 20⟩,
   ⟨5, 19⟩, ⟨3, 17⟩, ⟨1, 14⟩, ⟨0, 11⟩, ⟨0, 9⟩, ⟨1, 6⟩, ⟨3, 3⟩, ⟨5, 1⟩,
   ⟨8, 0⟩, ⟨11, 0⟩, ⟨14, 1⟩, ⟨16, 2⟩, ⟨18, 4⟩, ⟨20, 7⟩]

/-- The greedy order of `co5` (the identity; checked below). -/
def ord5 : List Nat := List.range 21

/-- A 4-point instance where an accepted 2-opt move makes the tour longer. -/
def coq : Coords := [⟨0, 0⟩, ⟨100, 100⟩, ⟨100, 0⟩, ⟨0, 90⟩]

/-- The cycle `0 → 1 → 2 → 3 → 0` as a tour state. -/
def tq : Tour := tour_from_order 4 [0, 1, 2, 3]

/-- The state after the engine's accepted move `(a,b,c,d) = (0,1,2,3)` on
`tq`. -/
def tq2 : Tour := ⟨[2, 0, 3, 1], [3, 3, 0, 2]⟩

/-- A 2-node instance (for the candidate-count claim). -/
def co2 : Coords := [⟨0, 0⟩, ⟨3, 0⟩]

/-- A 4-node instance whose candidate lists are left unsorted (fewer than
`K_CANDIDATES` entries are filled, so `qsort` is never called). -/
def co4sq : Coords := [⟨0, 0⟩, ⟨10, 10⟩, ⟨10, 0⟩, ⟨0, 10⟩]

/-- Two distinct nodes with identical coordinates. -/
def coDup : Coords := [⟨7, 5⟩, ⟨7, 5⟩]

/-- The states produced by applying `reverseSegment 1 2` once and twice to the
4-cycle `0 → 1 → 2 → 3 → 0`. -/
def t4b : Tour := ⟨[2, 0, 3, 1], [3, 3, 0, 2]⟩

/-- See `t4b`. -/
def t4c : Tour := ⟨[3, 3, 3, 1], [2, 3, 3, 2]⟩

/-! ### Theorems -/

/-- C1: the tour-structure invariant does not survive an accepted 2-opt move.
On instance `co3`, the tour materialised from the greedy order satisfies the
invariant, the engine's candidate scan at `i = 0` (with `a = 0`,
`b = successor 0 = 9`) skips candidate index `0` and accepts the move at
candidate index `1` (`c = 18`, `d = 15`), and the resulting state `t2hat`
violates the invariant: the links are no longer mutually consistent and
following `successor` no longer yields a single Hamiltonian cycle.  So the
claim fails on the code (the reversal/reconnection block at lines 184-198 is
incorrect). -/
theorem c1_invariant_broken_by_accepted_move :
    build_initial_tour co3 = some (ord3, 240) ∧
    invariantOK 21 (tour_from_order 21 ord3) = true ∧
    (tour_from_order 21 ord3).next.getD 0 0 = 9 ∧
    kLoop co3 ((build_candidate_set co3).getD 0 []) 0 9 [0, 1]
      (tour_from_order 21 ord3) false 17 = some (t2hat, true) ∧
    invariantOK 21 t2hat = false := by
  refine ⟨by decide, by decide, by decide, by decide, by decide⟩

/-- C2: an accepted 2-opt move can make the tour strictly longer.  On `coq`,
from the valid cycle `tq = (0 1 2 3)` of length `466`, the engine's candidate
scan at `i = 0` accepts the move `(a,b,c,d) = (0,1,2,3)` (its computed
`delta = 76` is far above the tolerance), yet the resulting tour `tq2` has
length `476 > 466`: the applied move does not match the evaluated `delta`, so
the claimed strict decrease fails on the code. -/
theorem c2_accepted_move_increases_length :
    invariantOK 4 tq = true ∧
    tour_length coq tq 10 = some 466 ∧
    ((dist coq 0 1 : Int) + (dist coq 2 3 : Int) - (dist coq 0 2 : Int) -
        (dist coq 1 3 : Int) = 76) ∧
    kLoop coq ((build_candidate_set coq).getD 0 []) 0 1 [0, 1] tq false 10 =
      some (tq2, true) ∧
    tour_length coq tq2 10 = some 476 := by
  refine ⟨by decide, by decide, by decide, by decide, by decide⟩

/-- C4: the candidate structure the code builds violates the claim.  For the
2-node instance `co2`, only `min(k, N-1) = 1` candidate edge is initialised,
but the stored `cand_count` is unconditionally `K_CANDIDATES = 20`
(line 111), so the 2-opt pass reads uninitialised entries (undefined
behaviour, `none` for every fuel).  Moreover for `co4sq` the list of node `0`
is `[1, 2, 3]` with distances `14, 10, 10`: not sorted ascending (with fewer
than `K_CANDIDATES` entries filled, `qsort` is never reached). -/
theorem c4_candidate_count_bug :
    cand_count co2 0 = 20 ∧
    ((build_candidate_set co2).getD 0 []).length = 1 ∧
    min K_CANDIDATES (co2.length - 1) = 1 ∧
    ¬ cand_count co2 0 ≤ min K_CANDIDATES (co2.length - 1) ∧
    (∀ fuel, two_opt_pass co2 (build_candidate_set co2) 2
      (tour_from_order 2 [0, 1]) fuel = none) ∧
    (build_candidate_set co4sq).getD 0 [] = [1, 2, 3] ∧
    dist co4sq 0 1 = 14 ∧ dist co4sq 0 2 = 10 := by
  refine ⟨by decide, by decide, by decide, by decide, fun fuel => rfl,
    by decide, by decide, by decide⟩

/-- C7: degenerate instances are not handled without error.  For `N = 0` the
code writes `visited[0]` and `order[0]` out of bounds and reads `order[-1]`
(modelled: `none`), instead of returning an empty order of length `0`.  For
`N = 1` the greedy construction does return `([0], 0)`, but the optimisation
stage reads uninitialised candidate entries (`cand_count = 20` with `0`
initialised edges), so the claimed optimized length `0` is never cleanly
produced either. -/
theorem c7_degenerate_instances_bug :
    build_initial_tour ([] : Coords) = none ∧
    build_initial_tour [(⟨0, 0⟩ : Point)] = some ([0], 0) ∧
    (∀ fuel, two_opt_pass [(⟨0, 0⟩ : Point)]
      (build_candidate_set [(⟨0, 0⟩ : Point)]) 1
      (tour_from_order 1 [0]) fuel = none) := by
  refine ⟨rfl, by decide, fun fuel => rfl⟩

/-- C8 counterexample: `distance` is not zero-only-at-equal-indices.  Two
distinct nodes with identical coordinates (instance `coDup`) have
`dist 0 1 = 0` although `0 ≠ 1`, refuting the claim's
`distance(i, j) == 0 iff i == j`. -/
theorem c8_dist_zero_counterexample :
    dist coDup 0 1 = 0 ∧ (0 : Nat) ≠ 1 := by
  refine ⟨by decide, by decide⟩

/-- C9: `reverseSegment` is not an involution on the code.  On the valid
4-cycle `0 → 1 → 2 → 3 → 0` (where `2` is forward-reachable from `1`),
applying the code's reversal block twice with boundary nodes `(1, 2)` yields
`t4c`, which differs from the original state (for example
`successor 0` becomes `3` instead of `1`), because the block leaves `c`'s
links unswapped and reconnects `b`/`d` backwards. -/
theorem c9_reverse_segment_not_involutive :
    invariantOK 4 (tour_from_order 4 [0, 1, 2, 3]) = true ∧
    (walk (tour_from_order 4 [0, 1, 2, 3]) 1 4).contains 2 = true ∧
    reverseSegment (tour_from_order 4 [0, 1, 2, 3]) 1 2 10 = some t4b ∧
    reverseSegment t4b 1 2 10 = some t4c ∧
    t4c ≠ tour_from_order 4 [0, 1, 2, 3] := by
  refine ⟨by decide, by decide, by decide, by decide, by decide⟩

/-! ### Helper lemmas for the non-termination claim (C3) -/

/-- The reversal loop is monotone in fuel: once it completes, more fuel gives
the same answer. -/
theorem swapLoop_mono :
    ∀ fuel t p c u, swapLoop fuel t p c = some u →
      ∀ g, fuel ≤ g → swapLoop g t p c = some u := by
  intro fuel
  induction fuel with
  | zero =>
    intro t p c u h g _
    by_cases hpc : p = c
    · simp only [swapLoop, if_pos hpc] at h
      cases g with
      | zero => simpa [swapLoop, if_pos hpc] using h
      | succ g => simpa [swapLoop, if_pos hpc] using h
    · simp [swapLoop, if_neg hpc] at h
  | succ f ih =>
    intro t p c u h g hg
    by_cases hpc : p = c
    · simp only [swapLoop, if_pos hpc] at h
      cases g with
      | zero => simpa [swapLoop, if_pos hpc] using h
      | succ g => simpa [swapLoop, if_pos hpc] using h
    · simp only [swapLoop, if_neg hpc] at h
      cases g with
      | zero => omega
      | succ g =>
        simp only [swapLoop, if_neg hpc]
        exact ih _ _ _ _ h g (by omega)

/-- If the first `n` trajectory points avoid `c` (checked executably), then
every iterate up to `n` has `p ≠ c`. -/
theorem avoidChk_spec :
    ∀ n s, avoidChk c n s = true → ∀ m, m < n → (swapIter^[m] s).2 ≠ c := by
  intro n
  induction n with
  | zero => intro s _ m hm; omega
  | succ k ih =>
    intro s h m hm
    simp only [avoidChk, Bool.and_eq_true, bne_iff_ne, ne_eq] at h
    cases m with
    | zero => simpa using h.1
    | succ m =>
      rw [Function.iterate_succ_apply]
      exact ih (swapIter s) h.2 m (by omega)

/-- If the trajectory of `swapIter` from `s` repeats
(`swapIter^[j + per] s = swapIter^[j] s` with `per > 0`), every iterate equals
one of the first `j + per` iterates. -/
theorem iterate_in_cycle {α : Type} (f : α → α) (s : α) (j per : Nat)
    (hper : 0 < per) (hcyc : f^[j + per] s = f^[j] s) :
    ∀ n, ∃ m, m < j + per ∧ f^[n] s = f^[m] s := by
  intro n
  induction n using Nat.strong_induction_on with
  | _ n ih =>
    by_cases h : n < j + per
    · exact ⟨n, h, rfl⟩
    · have h1 : n - per ≥ j := by omega
      have h2 : n - per < n := by omega
      have key : f^[n] s = f^[n - per] s := by
        have hn : n = (n - per - j) + per + j := by omega
        calc f^[n] s = f^[(n - per - j) + per + j] s := by rw [← hn]
        _ = f^[n - per - j] (f^[per + j] s) := by
            rw [← Function.iterate_add_apply]
            congr 1
            omega
        _ = f^[n - per - j] (f^[j] s) := by rw [Nat.add_comm per j, hcyc]
        _ = f^[n - per - j + j] s := by rw [Function.iterate_add_apply]
        _ = f^[n - per] s := by congr 1; omega
      obtain ⟨m, hm, he⟩ := ih (n - per) h2
      exact ⟨m, hm, key.trans he⟩

/-- If no iterate of the reversal step from `(t, p)` ever reaches `c`, the
reversal `while` loop never terminates: `none` for every fuel. -/
theorem swapLoop_avoid_none :
    ∀ fuel t p, (∀ n, (swapIter^[n] (t, p)).2 ≠ c) →
      swapLoop fuel t p c = none := by
  intro fuel
  induction fuel with
  | zero =>
    intro t p h
    have h0 := h 0
    simp only [Function.iterate_zero, id_eq] at h0
    simp [swapLoop, h0]
  | succ f ih =>
    intro t p h
    have h0 := h 0
    simp only [Function.iterate_zero, id_eq] at h0
    simp only [swapLoop, if_neg h0]
    refine ih _ _ fun n => ?_
    have := h (n + 1)
    rwa [Function.iterate_succ_apply] at this

/-- The concrete diverging reversal call of instance `co3`: from state `t2hat`
with `p = 9`, target `c = 12`, the trajectory is periodic
(configuration 17 equals configuration 1) and never reaches `12`, so the
`while (p != c)` loop of lines 186-192 runs forever. -/
theorem swapLoop_t2hat_diverges :
    ∀ fuel, swapLoop fuel t2hat 9 12 = none := by
  have hcyc : swapIter^[1 + 16] (t2hat, 9) = swapIter^[1] (t2hat, 9) := by decide
  have hchk : avoidChk 12 17 (t2hat, 9) = true := by decide
  have havoid : ∀ n, (swapIter^[n] (t2hat, 9)).2 ≠ 12 := by
    intro n
    obtain ⟨m, hm, he⟩ := iterate_in_cycle swapIter (t2hat, 9) 1 16 (by omega) hcyc n
    rw [he]
    exact avoidChk_spec 17 (t2hat, 9) hchk m hm
  intro fuel
  exact swapLoop_avoid_none fuel t2hat 9 havoid

/-! ### Small-step rewriting lemmas for evaluating a pass with symbolic fuel -/

/-- A candidate that hits one of the degenerate skip conditions leaves the
state unchanged. -/
theorem tryMove_skip {co : Coords} {a b c : Nat} {t : Tour} {fuel : Nat}
    (h : c = a ∨ c = b ∨ t.next.getD c 0 = a) :
    tryMove co a b c t fuel = some (t, false) := by
  simp only [tryMove, if_pos h]

/-- An accepted move whose reversal loop completes. -/
theorem tryMove_accept {co : Coords} {a b c : Nat} {t t1 : Tour} {fuel : Nat}
    (hskip : ¬(c = a ∨ c = b ∨ t.next.getD c 0 = a))
    (hdelta : 0 < (dist co a b : Int) + (dist co c (t.next.getD c 0) : Int) -
      (dist co a c : Int) - (dist co b (t.next.getD c 0) : Int))
    (hsw : swapLoop fuel t b c = some t1) :
    tryMove co a b c t fuel =
      some (reconnect t1 a b c (t.next.getD c 0), true) := by
  simp only [tryMove, if_neg hskip, if_pos hdelta, hsw]

/-- An accepted move whose reversal loop does not complete. -/
theorem tryMove_stuck {co : Coords} {a b c : Nat} {t : Tour} {fuel : Nat}
    (hskip : ¬(c = a ∨ c = b ∨ t.next.getD c 0 = a))
    (hdelta : 0 < (dist co a b : Int) + (dist co c (t.next.getD c 0) : Int) -
      (dist co a c : Int) - (dist co b (t.next.getD c 0) : Int))
    (hsw : swapLoop fuel t b c = none) :
    tryMove co a b c t fuel = none := by
  simp only [tryMove, if_neg hskip, if_pos hdelta, hsw]

/-- Stepping the candidate loop over a candidate that produces a result. -/
theorem kLoop_cons {co : Coords} {cands : List Nat} {a b k : Nat}
    {ks : List Nat} {t t1 : Tour} {imp moved : Bool} {fuel c : Nat}
    (hc : cands[k]? = some c)
    (hm : tryMove co a b c t fuel = some (t1, moved)) :
    kLoop co cands a b (k :: ks) t imp fuel =
      kLoop co cands a b ks t1 (imp || moved) fuel := by
  simp only [kLoop, hc, hm]

/-- Stepping the candidate loop over a candidate whose move gets stuck. -/
theorem kLoop_cons_none {co : Coords} {cands : List Nat} {a b k : Nat}
    {ks : List Nat} {t : Tour} {imp : Bool} {fuel c : Nat}
    (hc : cands[k]? = some c)
    (hm : tryMove co a b c t fuel = none) :
    kLoop co cands a b (k :: ks) t imp fuel = none := by
  simp only [kLoop, hc, hm]

/-- A stuck candidate loop makes the whole pass stuck. -/
theorem iLoop_cons_none {co : Coords} {ca : List (List Nat)} {i : Nat}
    {is : List Nat} {t : Tour} {imp : Bool} {fuel : Nat}
    (h : kLoop co (ca.getD i []) i (t.next.getD i 0)
      (List.range K_CANDIDATES) t imp fuel = none) :
    iLoop co ca (i :: is) t imp fuel = none := by
  simp only [iLoop, h]

/-- C3: the 2-opt local search does not terminate on every finite instance.
On the 21-node instance `co3` (all candidate lists fully initialised), the
first pass from the greedy tour accepts the move `(0, 9, 18, 15)` and then,
still at `i = 0`, accepts the move `(0, 9, 12, 9)` whose segment-reversal
`while` loop never reaches its target: `two_opt_pass` - and with it the
`while (two_opt_pass())` loop of `two_opt_local_search` - runs forever, for
every fuel bound.  The claim's premise (each accepted move strictly decreases
the length) fails on the code, and so does its conclusion. -/
theorem c3_local_search_never_terminates :
    build_initial_tour co3 = some (ord3, 240) ∧
    (∀ fuel, two_opt_pass co3 (build_candidate_set co3) 21
      (tour_from_order 21 ord3) fuel = none) ∧
    (∀ fuel outer, two_opt_local_search co3 (build_candidate_set co3) 21
      (tour_from_order 21 ord3) fuel outer = none) := by
  have ht : tour_from_order 21 ord3 = t03 := by decide
  have hpass : ∀ fuel, two_opt_pass co3 (build_candidate_set co3) 21
      (tour_from_order 21 ord3) fuel = none := by
    intro fuel
    rcases Nat.lt_or_ge fuel 17 with hf | hf
    · interval_cases fuel <;> decide
    · obtain ⟨m, rfl⟩ := Nat.exists_eq_add_of_le hf
      rw [ht]
      have hca : (build_candidate_set co3).getD 0 [] =
          [9, 18, 12, 15, 13, 20, 16, 3, 7, 14, 17, 19, 1, 8, 5, 10, 2, 6,
           11, 4] := by decide
      have hrange : List.range 21 = 0 :: [1, 2, 3, 4, 5, 6, 7, 8, 9, 10, 11,
          12, 13, 14, 15, 16, 17, 18, 19, 20] := by decide
      have hb : t03.next.getD 0 0 = 9 := by decide
      have hrangeK : List.range K_CANDIDATES = 0 :: 1 :: 2 :: [3, 4, 5, 6, 7,
          8, 9, 10, 11, 12, 13, 14, 15, 16, 17, 18, 19] := by decide
      show iLoop co3 (build_candidate_set co3)
        (List.range 21) t03 false (17 + m) = none
      rw [hrange]
      refine iLoop_cons_none ?_
      rw [hca, hb, hrangeK]
      rw [kLoop_cons (c := 9) (by decide) (tryMove_skip (by decide))]
      have hsw1 : swapLoop (17 + m) t03 9 18 = some t1hat :=
        swapLoop_mono 17 t03 9 18 t1hat (by decide) (17 + m) (by omega)
      have hacc : tryMove co3 0 9 18 t03 (17 + m) = some (t2hat, true) := by
        rw [tryMove_accept (by decide) (by decide) hsw1]
        have : reconnect t1hat 0 9 18 (t03.next.getD 18 0) = t2hat := by decide
        rw [this]
      rw [kLoop_cons (c := 18) (by decide) hacc]
      refine kLoop_cons_none (c := 12) (by decide) ?_
      exact tryMove_stuck (by decide) (by decide) (swapLoop_t2hat_diverges _)
  refine ⟨by decide, hpass, ?_⟩
  intro fuel outer
  cases outer with
  | zero => rfl
  | succ o => simp only [two_opt_local_search, hpass fuel]

/-! ### Frame lemmas: a pass that accepts no move writes nothing (C10) -/

/-- A candidate step that reports `moved = false` leaves the state unchanged,
and does so for every fuel (no branch of `tryMove` other than an applied move
consumes fuel or writes links). -/
theorem tryMove_no_move {co : Coords} {a b c : Nat} {t t1 : Tour} {fuel : Nat}
    (h : tryMove co a b c t fuel = some (t1, false)) :
    t1 = t ∧ ∀ g, tryMove co a b c t g = some (t, false) := by
  by_cases hskip : c = a ∨ c = b ∨ t.next.getD c 0 = a
  · rw [tryMove_skip hskip] at h
    simp only [Option.some.injEq, Prod.mk.injEq, and_true] at h
    exact ⟨h.symm, fun g => tryMove_skip hskip⟩
  · by_cases hdelta : 0 < (dist co a b : Int) +
      (dist co c (t.next.getD c 0) : Int) - (dist co a c : Int) -
      (dist co b (t.next.getD c 0) : Int)
    · exfalso
      cases hsw : swapLoop fuel t b c with
      | none => rw [tryMove_stuck hskip hdelta hsw] at h; exact Option.noConfusion h
      | some u =>
        rw [tryMove_accept hskip hdelta hsw] at h
        simp only [Option.some.injEq, Prod.mk.injEq] at h
        exact Bool.noConfusion h.2
    · have hval : ∀ g, tryMove co a b c t g = some (t, false) := by
        intro g
        simp only [tryMove, if_neg hskip, if_neg hdelta]
      rw [hval fuel] at h
      simp only [Option.some.injEq, Prod.mk.injEq, and_true] at h
      exact ⟨h.symm, hval⟩

/-- A candidate loop that reports `improved = false` made no writes: the state
it returns is the state it was given, the incoming flag was `false`, and the
same run (with any fuel) returns the same answer. -/
theorem kLoop_no_move {co : Coords} {cands : List Nat} {a b : Nat} :
    ∀ {ks : List Nat} {t t1 : Tour} {imp : Bool} {fuel : Nat},
      kLoop co cands a b ks t imp fuel = some (t1, false) →
      t1 = t ∧ imp = false ∧
        ∀ g, kLoop co cands a b ks t false g = some (t, false) := by
  intro ks
  induction ks with
  | nil =>
    intro t t1 imp fuel h
    simp only [kLoop, Option.some.injEq, Prod.mk.injEq] at h
    exact ⟨h.1.symm, h.2, fun g => by simp [kLoop, h.2]⟩
  | cons k ks ih =>
    intro t t1 imp fuel h
    cases hk : cands[k]? with
    | none => simp only [kLoop, hk] at h; exact Option.noConfusion h
    | some c =>
      cases hm : tryMove co a b c t fuel with
      | none => simp only [kLoop, hk, hm] at h; exact Option.noConfusion h
      | some r =>
        obtain ⟨t2, moved⟩ := r
        rw [kLoop_cons hk hm] at h
        obtain ⟨ht2, himp, hrest⟩ := ih h
        have hmoved : moved = false := by
          cases moved
          · rfl
          · simp at himp
        have himp0 : imp = false := by
          cases imp
          · rfl
          · simp at himp
        subst hmoved ht2
        obtain ⟨ht, htm⟩ := tryMove_no_move hm
        subst ht
        refine ⟨rfl, himp0, fun g => ?_⟩
        rw [kLoop_cons hk (htm g), Bool.or_false]
        exact hrest g

/-- As `kLoop_no_move`, for the outer loop of the pass. -/
theorem iLoop_no_move {co : Coords} {ca : List (List Nat)} :
    ∀ {is : List Nat} {t t1 : Tour} {imp : Bool} {fuel : Nat},
      iLoop co ca is t imp fuel = some (t1, false) →
      t1 = t ∧ imp = false ∧
        ∀ g, iLoop co ca is t false g = some (t, false) := by
  intro is
  induction is with
  | nil =>
    intro t t1 imp fuel h
    simp only [iLoop, Option.some.injEq, Prod.mk.injEq] at h
    exact ⟨h.1.symm, h.2, fun g => by simp [iLoop, h.2]⟩
  | cons i is ih =>
    intro t t1 imp fuel h
    cases hk : kLoop co (ca.getD i []) i (t.next.getD i 0)
        (List.range K_CANDIDATES) t imp fuel with
    | none => simp only [iLoop, hk] at h; exact Option.noConfusion h
    | some r =>
      obtain ⟨t2, imp2⟩ := r
      simp only [iLoop, hk] at h
      obtain ⟨ht2, himp2, hrest⟩ := ih h
      subst ht2 himp2
      obtain ⟨ht, himp, hkl⟩ := kLoop_no_move hk
      subst ht himp
      refine ⟨rfl, rfl, fun g => ?_⟩
      simp only [iLoop, hkl g]
      exact hrest g

/-- General frame property of the pass: reporting `improved = false` means the
state is returned unchanged and the pass is fuel-independent on it. -/
theorem two_opt_pass_frame {co : Coords} {ca : List (List Nat)}
    {N : Nat} {t t1 : Tour} {fuel : Nat}
    (h : two_opt_pass co ca N t fuel = some (t1, false)) :
    t1 = t ∧ ∀ g, two_opt_pass co ca N t g = some (t, false) := by
  obtain ⟨ht, -, hrest⟩ := iLoop_no_move h
  exact ⟨ht, hrest⟩

/-- C10: a full 2-opt pass that accepts no move (`improved = false`) writes no
link: the state it returns is exactly the state it received, and re-running the
pass from that state - with any fuel bound - again returns the same state with
`improved = false`.  The stopping state of `two_opt_local_search` is therefore
a fixed point of the pass. -/
theorem c10_pass_without_move_is_identity {co : Coords} {ca : List (List Nat)}
    {N : Nat} {t t1 : Tour} {fuel : Nat}
    (h : two_opt_pass co ca N t fuel = some (t1, false)) :
    t1 = t ∧ ∀ g, two_opt_pass co ca N t g = some (t, false) :=
  two_opt_pass_frame h

/-- Witness for C10 on the concrete instance `co5`: its first pass accepts no
move, so the pass is the identity on that state for every fuel. -/
theorem c10_witness :
    tour_from_order 21 ord5 = tour_from_order 21 ord5 ∧
    ∀ g, two_opt_pass co5 (build_candidate_set co5) 21
      (tour_from_order 21 ord5) g = some (tour_from_order 21 ord5, false) :=
  c10_pass_without_move_is_identity
    (by decide : two_opt_pass co5 (build_candidate_set co5) 21
      (tour_from_order 21 ord5) 0 = some (tour_from_order 21 ord5, false))

/-- C5: on successful completion the program does not print the readback of
the optimized tour.  On instance `co5` the pipeline succeeds all the way
through optimization (`two_opt_local_search` converges to the unchanged tour,
whose length `tour_length` reads back as `64`, and whose readback order
exists: `walk` from node `0` lists all 21 nodes), yet `main` frees the `order`
buffer (line 238) before passing it to `print_tour` (line 244), so the final
print dereferences freed memory: no run of `main` produces the claimed
output. -/
theorem c5_main_prints_freed_order :
    build_initial_tour co5 = some (ord5, 64) ∧
    (∀ fuel outer, two_opt_local_search co5 (build_candidate_set co5) 21
      (tour_from_order 21 ord5) fuel (outer + 1) =
        some (tour_from_order 21 ord5)) ∧
    tour_length co5 (tour_from_order 21 ord5) 30 = some 64 ∧
    walk (tour_from_order 21 ord5) 0 21 = ord5 ∧
    (∀ fuel outer lenFuel, main_run co5 fuel outer lenFuel = none) := by
  have hpass : ∀ g, two_opt_pass co5 (build_candidate_set co5) 21
      (tour_from_order 21 ord5) g = some (tour_from_order 21 ord5, false) :=
    (two_opt_pass_frame (by decide : two_opt_pass co5
      (build_candidate_set co5) 21 (tour_from_order 21 ord5) 0 =
        some (tour_from_order 21 ord5, false))).2
  have hls : ∀ fuel outer, two_opt_local_search co5 (build_candidate_set co5)
      21 (tour_from_order 21 ord5) fuel (outer + 1) =
      some (tour_from_order 21 ord5) := by
    intro fuel outer
    simp [two_opt_local_search, hpass fuel]
  refine ⟨by decide, hls, by decide, by decide, ?_⟩
  intro fuel outer lenFuel
  show main_run co5 fuel outer lenFuel = none
  have hbuild : build_initial_tour co5 = some (ord5, 64) := by decide
  have hlen : co5.length = 21 := by decide
  simp only [main_run, hbuild, hlen]
  cases outer with
  | zero => rfl
  | succ o =>
    rw [hls fuel o]
    cases h : tour_length co5 (tour_from_order 21 ord5) lenFuel <;> simp [h]

/-! ### Greedy construction is correct (C6) -/

/-- The inner scan maintains its invariant over any block of consecutive
indices. -/
theorem scanMinAux_inv (co : Coords) (cur : Nat) (visited : List Bool) :
    ∀ (n s : Nat) (best : Option (Nat × Nat)),
      ScanInv co cur visited s best →
      ScanInv co cur visited (s + n)
        (scanMinAux co cur visited (List.range' s n) best) := by
  intro n
  induction n with
  | zero =>
    intro s best h
    show ScanInv co cur visited (s + 0) best
    rwa [Nat.add_zero]
  | succ n ih =>
    intro s best h
    have hs : s + (n + 1) = s + 1 + n := by omega
    rw [hs]
    show ScanInv co cur visited (s + 1 + n)
      (scanMinAux co cur visited (s :: List.range' (s + 1) n) best)
    by_cases hv : visited.getD s true = true
    · have hvb : visited[s]?.getD true = true := by
        rw [← List.getD_eq_getElem?_getD]; exact hv
      have hstep : scanMinAux co cur visited (s :: List.range' (s + 1) n) best
          = scanMinAux co cur visited (List.range' (s + 1) n) best := by
        simp [scanMinAux, hvb]
      rw [hstep]
      refine ih (s + 1) best ?_
      cases best with
      | none =>
        intro j hj
        rcases Nat.lt_or_ge j s with h1 | h1
        · exact h j h1
        · have hjs : j = s := by omega
          subst hjs; exact hv
      | some jd =>
        obtain ⟨h1, h2, h3, h4, h5⟩ := h
        refine ⟨by omega, h2, h3, ?_, h5⟩
        intro j hj hjv
        rcases Nat.lt_or_ge j s with h6 | h6
        · exact h4 j h6 hjv
        · have hjs : j = s := by omega
          subst hjs
          rw [hv] at hjv
          exact absurd hjv (by simp)
    · have hv' : visited.getD s true = false := by
        cases hb : visited.getD s true
        · rfl
        · exact absurd hb hv
      have hvb : visited[s]?.getD true = false := by
        rw [← List.getD_eq_getElem?_getD]; exact hv'
      cases best with
      | none =>
        have hstep : scanMinAux co cur visited (s :: List.range' (s + 1) n) none
            = scanMinAux co cur visited (List.range' (s + 1) n)
                (some (s, dist co cur s)) := by
          simp [scanMinAux, hvb]
        rw [hstep]
        refine ih (s + 1) _ ?_
        refine ⟨by omega, hv', rfl, ?_, ?_⟩
        · intro j hj hjv
          rcases Nat.lt_or_ge j s with h6 | h6
          · rw [h j h6] at hjv
            exact Bool.noConfusion hjv
          · have hjs : j = s := by omega
            subst hjs; exact le_refl _
        · intro j hj hjv
          rw [h j (by omega)] at hjv
          exact Bool.noConfusion hjv
      | some jd =>
        obtain ⟨h1, h2, h3, h4, h5⟩ := h
        by_cases hlt : dist co cur s < jd.2
        · have hstep : scanMinAux co cur visited (s :: List.range' (s + 1) n)
              (some jd) = scanMinAux co cur visited (List.range' (s + 1) n)
                (some (s, dist co cur s)) := by
            simp [scanMinAux, hvb, hlt]
          rw [hstep]
          refine ih (s + 1) _ ?_
          refine ⟨by omega, hv', rfl, ?_, ?_⟩
          · intro j hj hjv
            rcases Nat.lt_or_ge j s with h6 | h6
            · exact le_of_lt (lt_of_lt_of_le hlt (h4 j h6 hjv))
            · have hjs : j = s := by omega
              subst hjs; exact le_refl _
          · intro j hj hjv
            exact lt_of_lt_of_le hlt (h4 j (by omega) hjv)
        · have hstep : scanMinAux co cur visited (s :: List.range' (s + 1) n)
              (some jd) = scanMinAux co cur visited (List.range' (s + 1) n)
                (some jd) := by
            simp [scanMinAux, hvb, hlt]
          rw [hstep]
          refine ih (s + 1) _ ?_
          refine ⟨by omega, h2, h3, ?_, h5⟩
          intro j hj hjv
          rcases Nat.lt_or_ge j s with h6 | h6
          · exact h4 j h6 hjv
          · have hjs : j = s := by omega
            subst hjs
            omega

/-- The full scan satisfies the invariant at `N = co.length`. -/
theorem scanMin_inv (co : Coords) (cur : Nat) (visited : List Bool) :
    ScanInv co cur visited co.length (scanMin co cur visited) := by
  have h0 : ScanInv co cur visited 0 none := fun j hj => absurd hj (by omega)
  have h := scanMinAux_inv co cur visited co.length 0 none h0
  rw [Nat.zero_add] at h
  rwa [scanMin, List.range_eq_range']

/-- The last element of a reversed list is the head of the list. -/
theorem reverse_getLastD (l : List Nat) (d : Nat) :
    l.reverse.getLastD d = l.headD d := by
  have h := List.head?_reverse l.reverse
  rw [List.reverse_reverse] at h
  rw [List.getLastD_eq_getLast? d l.reverse, ← h, List.headD_eq_head?]

/-- `getLastD` as a positional `getD`. -/
theorem getLastD_eq_getD (l : List Nat) (d : Nat) :
    l.getLastD d = l.getD (l.length - 1) d := by
  rw [List.getLastD_eq_getLast? d l, List.getLast?_eq_getElem?,
    List.getD_eq_getElem?_getD]

/-- Extending a greedy order by a node that realises the minimum distance to
the current endpoint (with ties broken by lower index) preserves the
greedy-choice property. -/
theorem GreedyStep_append (co : Coords) (N : Nat) (l : List Nat) (j : Nat)
    (hg : GreedyStep co N l) (hjN : j < N) (hjl : j ∉ l)
    (hmin : ∀ x, x < N → x ∉ l →
      dist co (l.getLastD 0) j ≤ dist co (l.getLastD 0) x)
    (hstrict : ∀ x, x < N → x ∉ l → x < j →
      dist co (l.getLastD 0) j < dist co (l.getLastD 0) x) :
    GreedyStep co N (l ++ [j]) := by
  intro k hk
  rw [List.length_append, List.length_singleton] at hk
  rcases Nat.lt_or_ge (k + 1) l.length with hlt | hge
  · have e1 : (l ++ [j]).getD (k + 1) 0 = l.getD (k + 1) 0 :=
      List.getD_append _ _ _ _ hlt
    have e0 : (l ++ [j]).getD k 0 = l.getD k 0 :=
      List.getD_append _ _ _ _ (by omega)
    have e2 : (l ++ [j]).take (k + 1) = l.take (k + 1) :=
      List.take_append_of_le_length (by omega)
    rw [e1, e0, e2]
    exact hg k hlt
  · have hkl : k + 1 = l.length := by omega
    have e1 : (l ++ [j]).getD (k + 1) 0 = j := by
      rw [List.getD_eq_getElem?_getD, hkl, List.getElem?_concat_length]
      rfl
    have e0 : (l ++ [j]).getD k 0 = l.getLastD 0 := by
      rw [List.getD_append _ _ _ _ (by omega), getLastD_eq_getD]
      congr 1
      omega
    have e2 : (l ++ [j]).take (k + 1) = l := by
      rw [List.take_append_of_le_length (by omega), hkl, List.take_length]
    rw [e1, e0, e2]
    exact ⟨hjN, hjl, fun x hxN hx =>
      ⟨hmin x hxN hx, fun hxj => hstrict x hxN hx hxj⟩⟩

/-- Main induction for `build_initial_tour`: from a state satisfying the loop
invariant, `greedyLoop` completes, appending a tail that keeps the order
duplicate-free, in range, greedy, and whose cost contribution is the path cost
from the current endpoint through the tail. -/
theorem greedyLoop_inv (co : Coords) :
    ∀ (steps cur : Nat) (visited : List Bool) (acc : List Nat) (cost : Nat),
      visited.length = co.length →
      acc ≠ [] →
      acc.headD 0 = cur →
      (∀ j, j < co.length → (visited.getD j true = true ↔ j ∈ acc)) →
      (∀ x, x ∈ acc → x < co.length) →
      acc.Nodup →
      acc.length + steps = co.length →
      GreedyStep co co.length acc.reverse →
      ∃ tail,
        greedyLoop co steps cur visited acc cost =
          some (acc.reverse ++ tail, cost + pathCost co (cur :: tail)) ∧
        (acc.reverse ++ tail).length = co.length ∧
        (acc.reverse ++ tail).Nodup ∧
        (∀ x, x ∈ acc.reverse ++ tail → x < co.length) ∧
        GreedyStep co co.length (acc.reverse ++ tail) := by
  intro steps
  induction steps with
  | zero =>
    intro cur visited acc cost hlen hne hhead hiff hbound hnd hcount hg
    refine ⟨[], ?_, ?_, ?_, ?_, ?_⟩
    · show some (acc.reverse, cost) = _
      rw [List.append_nil]
      have : pathCost co [cur] = 0 := rfl
      rw [this, Nat.add_zero]
    · rw [List.append_nil, List.length_reverse]; omega
    · rw [List.append_nil]; exact List.nodup_reverse.mpr hnd
    · intro x hx
      rw [List.append_nil] at hx
      exact hbound x (List.mem_reverse.mp hx)
    · rw [List.append_nil]; exact hg
  | succ steps ih =>
    intro cur visited acc cost hlen hne hhead hiff hbound hnd hcount hg
    have hexists : ∃ j, j < co.length ∧ j ∉ acc := by
      by_contra hcon
      push_neg at hcon
      have hsub : List.range co.length ⊆ acc := fun x hx =>
        hcon x (List.mem_range.mp hx)
      have hle := ((List.nodup_range co.length).subperm hsub).length_le
      rw [List.length_range] at hle
      omega
    obtain ⟨j0, hj0N, hj0acc⟩ := hexists
    have hj0vis : visited.getD j0 true = false := by
      cases hb : visited.getD j0 true
      · rfl
      · exact absurd ((hiff j0 hj0N).mp hb) hj0acc
    have hinv := scanMin_inv co cur visited
    cases hscan : scanMin co cur visited with
    | none =>
      rw [hscan] at hinv
      have := hinv j0 hj0N
      rw [hj0vis] at this
      exact Bool.noConfusion this
    | some jd =>
      obtain ⟨j1, d1⟩ := jd
      rw [hscan] at hinv
      obtain ⟨hj1N, hj1vis, hd1, hminv, hstrictv⟩ := hinv
      have hj1acc : j1 ∉ acc := fun hmem => by
        rw [(hiff j1 hj1N).mpr hmem] at hj1vis
        exact Bool.noConfusion hj1vis
      have hunvis : ∀ x, x < co.length → x ∉ acc →
          visited.getD x true = false := by
        intro x hxN hxacc
        cases hb : visited.getD x true
        · rfl
        · exact absurd ((hiff x hxN).mp hb) hxacc
      have hcur : acc.reverse.getLastD 0 = cur := by
        rw [reverse_getLastD, hhead]
      obtain ⟨tail, htail, hlen2, hnd2, hbound2, hg2⟩ :=
        ih j1 (visited.set j1 true) (j1 :: acc) (cost + d1)
          (by rw [List.length_set]; exact hlen)
          (List.cons_ne_nil j1 acc)
          rfl
          (by
            intro j hj
            by_cases hjj : j = j1
            · subst hjj
              have hjlen : j < visited.length := by omega
              rw [List.getD_eq_getElem?_getD,
                List.getElem?_set_eq_of_lt true hjlen]
              simp [List.mem_cons]
            · rw [List.getD_eq_getElem?_getD,
                List.getElem?_set_ne (fun h => hjj h.symm),
                ← List.getD_eq_getElem?_getD, hiff j hj]
              simp [List.mem_cons, hjj])
          (by
            intro x hx
            rcases List.mem_cons.mp hx with h | h
            · subst h; exact hj1N
            · exact hbound x h)
          (List.nodup_cons.mpr ⟨hj1acc, hnd⟩)
          (by rw [List.length_cons]; omega)
          (by
            rw [List.reverse_cons]
            refine GreedyStep_append co co.length acc.reverse j1 hg hj1N
              (fun h => hj1acc (List.mem_reverse.mp h)) ?_ ?_
            · intro x hxN hx
              rw [hcur, ← hd1]
              have := hminv x hxN (hunvis x hxN fun hm => hx (List.mem_reverse.mpr hm))
              calc d1 ≤ dist co cur x := this
              _ = dist co cur x := rfl
            · intro x hxN hx hxj
              rw [hcur, ← hd1]
              exact hstrictv x hxj (hunvis x hxN fun hm => hx (List.mem_reverse.mpr hm)))
      refine ⟨j1 :: tail, ?_, ?_, ?_, ?_, ?_⟩
      · have hloop : greedyLoop co (steps + 1) cur visited acc cost =
            greedyLoop co steps j1 (visited.set j1 true) (j1 :: acc)
              (cost + d1) := by
          simp only [greedyLoop, hscan]
        rw [hloop, htail, List.reverse_cons, ← List.append_cons]
        have hpc : pathCost co (cur :: j1 :: tail) =
            dist co cur j1 + pathCost co (j1 :: tail) := rfl
        rw [hpc, ← hd1, ← Nat.add_assoc]
      · rw [List.append_cons, ← List.reverse_cons]; exact hlen2
      · rw [List.append_cons, ← List.reverse_cons]; exact hnd2
      · rw [List.append_cons, ← List.reverse_cons]; exact hbound2
      · rw [List.append_cons, ← List.reverse_cons]; exact hg2

/-- C6: the greedy constructor is correct.  For every instance with at least
one node, `build_initial_tour` succeeds; the order it returns starts at node
`0` and is a permutation of `{0..N-1}`; every node after the first is an
unvisited node of minimal distance to the current endpoint with ties broken by
the lower node index (`GreedyStep`); and the returned length is the sum of the
consecutive distances along the order plus the closing distance from the last
node back to the first. -/
theorem c6_greedy_constructor_correct (co : Coords) (h : co ≠ []) :
    ∃ order cost, build_initial_tour co = some (order, cost) ∧
      order.Perm (List.range co.length) ∧
      order.headD 0 = 0 ∧
      GreedyStep co co.length order ∧
      cost = pathCost co order +
        dist co (order.getLastD 0) (order.headD 0) := by
  cases hco : co.length with
  | zero => exact absurd (List.length_eq_zero.mp hco) h
  | succ N =>
    obtain ⟨tail, htail, hlen2, hnd2, hbound2, hg2⟩ :=
      greedyLoop_inv co N 0 ((List.replicate (N + 1) false).set 0 true) [0] 0
        (by rw [List.length_set, List.length_replicate, hco])
        (List.cons_ne_nil 0 [])
        rfl
        (by
          intro j hj
          by_cases hj0 : j = 0
          · subst hj0
            rw [List.getD_eq_getElem?_getD,
              List.getElem?_set_eq_of_lt true (by rw [List.length_replicate]; omega)]
            simp
          · rw [List.getD_eq_getElem?_getD,
              List.getElem?_set_ne (fun hh => hj0 hh.symm),
              List.getElem?_replicate]
            have hjN : j < N + 1 := by omega
            simp [hjN, hj0])
        (by intro x hx; simp only [List.mem_singleton] at hx; omega)
        (List.nodup_singleton 0)
        (by simp only [List.length_singleton]; omega)
        (by intro k hk; simp only [List.reverse_singleton,
          List.length_singleton] at hk; omega)
    rw [hco] at hlen2 hbound2 hg2
    have hbuild : build_initial_tour co =
        some (0 :: tail, pathCost co (0 :: tail) +
          dist co ((0 :: tail).getLastD 0) ((0 :: tail).headD 0)) := by
      simp only [build_initial_tour, hco]
      have htail2 : greedyLoop co N 0 ((List.replicate (N + 1) false).set 0 true)
          [0] 0 = some (0 :: tail, pathCost co (0 :: tail)) := by
        rw [htail]
        simp
      rw [htail2]
    refine ⟨0 :: tail, _, hbuild, ?_, rfl, hg2, rfl⟩
    have hnd3 : (0 :: tail).Nodup := hnd2
    have hsub : (0 :: tail) ⊆ List.range (N + 1) := fun x hx =>
      List.mem_range.mpr (hbound2 x hx)
    refine (hnd3.subperm hsub).perm_of_length_le ?_
    rw [List.length_range]
    have hl3 : ((0 : Nat) :: tail).length = N + 1 := hlen2
    omega

/-- Witness for C6 at the concrete 4-node instance `co4sq`. -/
theorem c6_witness :
    ∃ order cost, build_initial_tour co4sq = some (order, cost) ∧
      order.Perm (List.range co4sq.length) ∧
      order.headD 0 = 0 ∧
      GreedyStep co4sq co4sq.length order ∧
      cost = pathCost co4sq order +
        dist co4sq (order.getLastD 0) (order.headD 0) :=
  c6_greedy_constructor_correct co4sq (by decide)

/-! ### The distance function as a rounded Euclidean metric (C8) -/

/-- `sqrtAux` computes the integer square root once the fuel dominates the
input. -/
theorem sqrtAux_spec : ∀ fuel n, n ≤ fuel →
    sqrtAux fuel n * sqrtAux fuel n ≤ n ∧
      n < (sqrtAux fuel n + 1) * (sqrtAux fuel n + 1) := by
  intro fuel
  induction fuel with
  | zero => intro n hn; interval_cases n; simp [sqrtAux]
  | succ f ih =>
    intro n hn
    by_cases h2 : n < 2
    · simp only [sqrtAux, if_pos h2]
      interval_cases n <;> simp
    · simp only [sqrtAux, if_neg h2]
      have hrec : n / 4 ≤ f := by omega
      obtain ⟨h1, h1'⟩ := ih (n / 4) hrec
      set s := sqrtAux f (n / 4) with hs
      have hlow : 2 * s * (2 * s) ≤ n :=
        calc 2 * s * (2 * s) = 4 * (s * s) := by ring
        _ ≤ 4 * (n / 4) := Nat.mul_le_mul_left 4 h1
        _ ≤ n := by omega
      have hhigh : n < (2 * s + 2) * (2 * s + 2) :=
        calc n < 4 * (n / 4) + 4 := by omega
        _ = 4 * (n / 4 + 1) := by ring
        _ ≤ 4 * ((s + 1) * (s + 1)) := Nat.mul_le_mul_left 4 h1'
        _ = (2 * s + 2) * (2 * s + 2) := by ring
      by_cases hc : (2 * s + 1) * (2 * s + 1) ≤ n
      · simp only [if_pos hc]
        refine ⟨hc, ?_⟩
        have he : 2 * s + 1 + 1 = 2 * s + 2 := by ring
        rw [he]
        exact hhigh
      · simp only [if_neg hc]
        exact ⟨hlow, Nat.not_le.mp hc⟩

/-- `natSqrt n` is the integer square root of `n`. -/
theorem natSqrt_spec (n : Nat) :
    natSqrt n * natSqrt n ≤ n ∧ n < (natSqrt n + 1) * (natSqrt n + 1) :=
  sqrtAux_spec n n le_rfl

/-- The squared distance is symmetric in its two points. -/
theorem sqDist_comm (p q : Point) : sqDist p q = sqDist q p := by
  unfold sqDist
  congr 1
  ring

/-- The squared distance vanishes exactly on equal coordinate pairs. -/
theorem sqDist_eq_zero_iff (p q : Point) : sqDist p q = 0 ↔ p = q := by
  unfold sqDist
  rw [Int.toNat_eq_zero]
  constructor
  · intro h
    have h1 : (p.x - q.x) * (p.x - q.x) = 0 := by
      nlinarith [mul_self_nonneg (p.x - q.x), mul_self_nonneg (p.y - q.y)]
    have h2 : (p.y - q.y) * (p.y - q.y) = 0 := by
      nlinarith [mul_self_nonneg (p.x - q.x), mul_self_nonneg (p.y - q.y)]
    have hx : p.x = q.x := by
      have := mul_self_eq_zero.mp h1
      omega
    have hy : p.y = q.y := by
      have := mul_self_eq_zero.mp h2
      omega
    cases p; cases q
    simp_all
  · rintro rfl
    simp

/-- The rounded square root vanishes only at zero. -/
theorem roundSqrt_eq_zero_iff (m : Nat) : roundSqrt m = 0 ↔ m = 0 := by
  obtain ⟨h1, h2⟩ := natSqrt_spec (4 * m)
  unfold roundSqrt
  constructor
  · intro h
    have hs0 : natSqrt (4 * m) = 0 := by omega
    rw [hs0] at h2
    omega
  · intro h
    subst h
    rfl

/-- The executable `roundSqrt` is exactly the rounded real square root. -/
theorem roundSqrt_eq_round_sqrt (m : Nat) :
    (roundSqrt m : ℤ) = round (Real.sqrt (m : ℝ)) := by
  obtain ⟨h1, h2⟩ := natSqrt_spec (4 * m)
  set s := natSqrt (4 * m) with hs
  have hm4 : ((4 * m : ℕ) : ℝ) = 4 * (m : ℝ) := by push_cast; ring
  have hs_le : (s : ℝ) ≤ Real.sqrt (4 * (m : ℝ)) := by
    rw [← hm4]
    refine (Real.le_sqrt (by positivity) (by positivity)).mpr ?_
    have hcast : ((s * s : ℕ) : ℝ) ≤ ((4 * m : ℕ) : ℝ) := by exact_mod_cast h1
    push_cast at hcast ⊢
    nlinarith
  have hs_lt : Real.sqrt (4 * (m : ℝ)) < (s : ℝ) + 1 := by
    rw [← hm4]
    refine (Real.sqrt_lt' (by positivity)).mpr ?_
    have hcast : ((4 * m : ℕ) : ℝ) < (((s + 1) * (s + 1) : ℕ) : ℝ) := by
      exact_mod_cast h2
    push_cast at hcast ⊢
    nlinarith
  have h4 : Real.sqrt (4 * (m : ℝ)) = 2 * Real.sqrt (m : ℝ) := by
    rw [show (4 : ℝ) * (m : ℝ) = 2 ^ 2 * (m : ℝ) from by ring,
      Real.sqrt_mul (by positivity), Real.sqrt_sq (by norm_num)]
  rw [h4] at hs_le hs_lt
  obtain ⟨q, hqdef⟩ : ∃ q, q = (s + 1) / 2 := ⟨(s + 1) / 2, rfl⟩
  have hq : roundSqrt m = q := by rw [roundSqrt, ← hs, ← hqdef]
  have hd1 : q * 2 ≤ s + 1 := by omega
  have hd2 : s + 1 ≤ q * 2 + 1 := by omega
  have hc1 : (q : ℝ) * 2 ≤ (s : ℝ) + 1 := by exact_mod_cast hd1
  have hc2 : (s : ℝ) + 1 ≤ (q : ℝ) * 2 + 1 := by exact_mod_cast hd2
  rw [hq, round_eq]
  symm
  refine Int.floor_eq_iff.mpr ?_
  constructor
  · push_cast
    linarith
  · push_cast
    linarith

/-- C8 (amended): `distance` is a non-negative integer value, symmetric, equal
to the planar Euclidean distance between the two nodes' coordinates rounded to
the nearest integer, and zero exactly when the two nodes have identical
coordinates (not: exactly when `i = j`; see the counterexample
`c8_dist_zero_counterexample`). -/
theorem c8_dist_metric_amended (co : Coords) (i j : Nat) :
    dist co i j = dist co j i ∧
    (dist co i j = 0 ↔ co.getD i ⟨0, 0⟩ = co.getD j ⟨0, 0⟩) ∧
    (dist co i j : ℤ) = round (Real.sqrt
      ((((co.getD i ⟨0, 0⟩).x - (co.getD j ⟨0, 0⟩).x : ℤ) : ℝ) ^ 2 +
        (((co.getD i ⟨0, 0⟩).y - (co.getD j ⟨0, 0⟩).y : ℤ) : ℝ) ^ 2)) := by
  obtain ⟨p, hp⟩ : ∃ p, p = co.getD i ⟨0, 0⟩ := ⟨_, rfl⟩
  obtain ⟨q, hq⟩ : ∃ q, q = co.getD j ⟨0, 0⟩ := ⟨_, rfl⟩
  rw [← hp, ← hq]
  have hdij : dist co i j = roundSqrt (sqDist p q) := by
    rw [dist, hp, hq]
  have hdji : dist co j i = roundSqrt (sqDist q p) := by
    rw [dist, hp, hq]
  refine ⟨?_, ?_, ?_⟩
  · rw [hdij, hdji, sqDist_comm]
  · rw [hdij, roundSqrt_eq_zero_iff, sqDist_eq_zero_iff]
  · rw [hdij, roundSqrt_eq_round_sqrt]
    congr 2
    have he : (0 : ℤ) ≤ (p.x - q.x) * (p.x - q.x) + (p.y - q.y) * (p.y - q.y) :=
      add_nonneg (mul_self_nonneg _) (mul_self_nonneg _)
    rw [sqDist]
    have h3 : ((((p.x - q.x) * (p.x - q.x) + (p.y - q.y) * (p.y - q.y)).toNat : ℕ) : ℝ)
        = (((p.x - q.x) * (p.x - q.x) + (p.y - q.y) * (p.y - q.y) : ℤ) : ℝ) := by
      exact_mod_cast Int.toNat_of_nonneg he
    rw [h3]
    push_cast
    ring

end LKH
